import Mathlib

/-!
Verification development for the PathFinding.js-MinimalTurns repository.

The JavaScript sources are embedded shallowly:
* `src/unnamed/part_000` (the path utility toolkit: `backtrace`, `interpolate`,
  `expandPath`, `smoothenPath`, `compressPath`, `bestPath`, `resolveTies`);
* `src/src/finders/AStarFinder.js` (the iterative A* search engine).

JavaScript IEEE-754 numbers are modelled as exact rationals extended with a
NaN element (`JNum`); every double is an exact rational, and all arithmetic
appearing in the evaluated traces of the theorems below is exact, so the
rational model agrees with the source on those traces.  `undefined` values
are modelled with `Option`; JavaScript arithmetic applied to `undefined`
yields NaN, which the conversion helpers below reproduce.
-/

abbrev Coord := Int × Int

/-- JavaScript numbers: exact rationals plus NaN.  Any arithmetic involving
NaN yields NaN; NaN comparisons are always false (including NaN === NaN). -/
inductive JNum where
  | num (q : ℚ)
  | nan
deriving DecidableEq, Repr

def JNum.add : JNum → JNum → JNum
  | num a, num b => num (a + b)
  | _, _ => nan

def JNum.sub : JNum → JNum → JNum
  | num a, num b => num (a - b)
  | _, _ => nan

def JNum.mul : JNum → JNum → JNum
  | num a, num b => num (a * b)
  | _, _ => nan

/-- JavaScript `<` on numbers; false whenever either side is NaN. -/
def JNum.lt : JNum → JNum → Bool
  | num a, num b => decide (a < b)
  | _, _ => false

/-- JavaScript `>` on numbers; false whenever either side is NaN. -/
def JNum.gt (a b : JNum) : Bool := JNum.lt b a

/-- JavaScript `===` on numbers; NaN === NaN is false. -/
def JNum.seq : JNum → JNum → Bool
  | num a, num b => decide (a = b)
  | _, _ => false

/-- JavaScript truthiness of a number: 0 and NaN are falsy. -/
def JNum.truthy : JNum → Bool
  | num q => decide (q ≠ 0)
  | nan => false

/-- Reading a possibly-undefined numeric field for use in arithmetic:
`undefined` behaves as NaN. -/
def jsUndef : Option JNum → JNum
  | some v => v
  | none => .nan

/-- An `Int`-valued possibly-undefined field used in arithmetic. -/
def jsUndefInt : Option Int → JNum
  | some v => .num (v : ℚ)
  | none => .nan

/-- `Number` coercion of a possibly-undefined boolean (as produced by
multiplying a flag into an arithmetic expression): `undefined` gives NaN. -/
def jsNumOfBool : Option Bool → JNum
  | some true => .num 1
  | some false => .num 0
  | none => .nan

/-- JavaScript truthiness of a possibly-undefined boolean option flag. -/
def jsTruthy (o : Option Bool) : Bool := o = some true

/-- The exact rational value of the IEEE-754 double `Math.SQRT2`. -/
def SQRT2 : ℚ := 6369051672525773 / 4503599627370496

/-! ### `backtrace` (src/unnamed/part_000, lines 7-14)

Parent links form a finite tree; a node is either the root (JS: `parent`
is `undefined`) or has exactly one parent.  The inductive type makes the
chain finite and acyclic, exactly the situation the claim describes. -/

inductive PNode where
  | root (x : Int) (y : Int)
  | child (x : Int) (y : Int) (parent : PNode)

def PNode.x : PNode → Int
  | .root x _ => x
  | .child x _ _ => x

def PNode.y : PNode → Int
  | .root _ y => y
  | .child _ y _ => y

/-- The `while (node.parent)` loop of `backtrace`: the node's coordinates
followed by the coordinates of each ancestor up to the root (push order). -/
def backtraceChain : PNode → List Coord
  | .root x y => [(x, y)]
  | .child x y p => (x, y) :: backtraceChain p

/-- `backtrace(node)`: collect coordinates up the parent chain, then
`path.reverse()`. -/
def backtrace (n : PNode) : List Coord := (backtraceChain n).reverse

/-- Depth of a node in the parent tree (root has depth 0). -/
def PNode.depth : PNode → Nat
  | .root _ _ => 0
  | .child _ _ p => p.depth + 1

/-- The root reached by following parent links. -/
def PNode.top : PNode → PNode
  | .root x y => .root x y
  | .child _ _ p => p.top

/-! ### `interpolate` (src/unnamed/part_000, lines 59-91)

Bresenham rasterization.  All arithmetic is on integers in the source as
well.  The `while (true)` loop is given fuel `dx + dy + 1`, which the
lemmas below show is enough for every segment the claims touch. -/

def interpGo (x1 y1 dx dy sx sy : Int) : Nat → Int → Int → Int → List Coord
  | 0, _, _, _ => []
  | fuel + 1, x0, y0, err =>
    (x0, y0) ::
      (if x0 = x1 ∧ y0 = y1 then []
       else
         let e2 := 2 * err
         let x0n := if e2 > -dy then x0 + sx else x0
         let errx := if e2 > -dy then err - dy else err
         let y0n := if e2 < dx then y0 + sy else y0
         let erry := if e2 < dx then errx + dx else errx
         interpGo x1 y1 dx dy sx sy fuel x0n y0n erry)

def interpolate (x0 y0 x1 y1 : Int) : List Coord :=
  let dx : Int := (x1 - x0).natAbs
  let dy : Int := (y1 - y0).natAbs
  let sx : Int := if x0 < x1 then 1 else -1
  let sy : Int := if y0 < y1 then 1 else -1
  interpGo x1 y1 dx dy sx sy ((x1 - x0).natAbs + (y1 - y0).natAbs + 1) x0 y0 (dx - dy)

/-! ### `expandPath` (src/unnamed/part_000, lines 101-126) -/

/-- The pair loop of `expandPath`: for each consecutive pair push the
interpolation minus its final cell; after all pairs push the last point. -/
def expandSegs : Coord → List Coord → List Coord
  | c0, [] => [c0]
  | c0, c1 :: rest => (interpolate c0.1 c0.2 c1.1 c1.2).dropLast ++ expandSegs c1 rest

def expandPath : List Coord → List Coord
  | [] => []
  | [_] => []
  | c0 :: c1 :: rest => expandSegs c0 (c1 :: rest)

/-! ### `compressPath` (src/unnamed/part_000, lines 186-245)

The source divides `(dx, dy)` by `Math.sqrt(dx*dx + dy*dy)`.  Over real
arithmetic two nonzero integer vectors have equal normalizations exactly
when they are positive parallel multiples of one another, i.e. exactly when
dividing each by its positive gcd yields the same pair; the normalized
direction is modelled by that canonical integer representative.  The zero
vector gives `(0/0, 0/0) = (NaN, NaN)` in the source, modelled as `none`;
NaN compares unequal to everything, which `dirNe` reproduces. -/

def normDir (dx dy : Int) : Option Coord :=
  if dx = 0 ∧ dy = 0 then none
  else some (dx / (Int.gcd dx dy : Int), dy / (Int.gcd dx dy : Int))

/-- The changed-direction test `dx !== ldx || dy !== ldy`. -/
def dirNe : Option Coord → Option Coord → Bool
  | some u, some v => decide (u ≠ v)
  | _, _ => true

/-- Main loop of `compressPath`: `p` is the previous point `(px, py)`,
`d` the previous normalized direction; on a direction change the previous
point is emitted; after the loop the final point is emitted. -/
def compressGo : Coord → Option Coord → List Coord → List Coord → List Coord
  | p, _, [], acc => acc ++ [p]
  | p, d, q :: rest, acc =>
    let nd := normDir (q.1 - p.1) (q.2 - p.2)
    if dirNe nd d then compressGo q nd rest (acc ++ [p])
    else compressGo q nd rest acc

def compressPath (path : List Coord) : List Coord :=
  match path with
  | p0 :: p1 :: p2 :: rest =>
    p0 :: compressGo p1 (normDir (p1.1 - p0.1) (p1.2 - p0.2)) (p2 :: rest) []
  | _ => path

/-! ### `smoothenPath` (src/unnamed/part_000, lines 136-176) -/

/-- The inner blocking test: some interpolated cell other than the first is
non-walkable (the `j = 1` loop start skips the anchor itself). -/
def lineBlocked (walk : Int → Int → Bool) (sx sy ex ey : Int) : Bool :=
  ((interpolate sx sy ex ey).drop 1).any (fun q => ! walk q.1 q.2)

/-- Main loop of `smoothenPath`: `s` is the current anchor `(sx, sy)`,
`prev` is `path[i-1]`, the list holds `path[i], path[i+1], ...`.  On a
blocked test the previous point is committed and becomes the anchor. -/
def smoothenGo (walk : Int → Int → Bool) : Coord → Coord → List Coord → List Coord
  | _, _, [] => []
  | s, prev, c :: rest =>
    if lineBlocked walk s.1 s.2 c.1 c.2 then prev :: smoothenGo walk prev c rest
    else smoothenGo walk s c rest

/-- `smoothenPath(grid, path)`; the grid collaborator enters only through
`isWalkableAt`, passed as the function `walk`.  The source dereferences
`path[0]` unconditionally, so the empty case (where the source would throw)
is unreachable under the nonempty hypothesis of the theorems below. -/
def smoothenPath (walk : Int → Int → Bool) (path : List Coord) : List Coord :=
  match path with
  | [] => []
  | [p] => [p, p]
  | p0 :: p1 :: rest =>
    p0 :: (smoothenGo walk p0 p1 rest ++ [(p1 :: rest).getLast (List.cons_ne_nil _ _)])

/-! ### `bestPath` (src/unnamed/part_000, lines 253-262)

Candidates are the `structuredClone(endNode)` snapshots pushed by the
engine: the terminal f-score plus the backtraced coordinate path carried by
the cloned parent chain.  On an empty array the source reads `paths[0]`,
obtaining `undefined`, which is modelled as `none`; the engine then calls
`backtrace(undefined)`, a TypeError. -/

structure PathCand where
  f : Option JNum
  path : List Coord
deriving DecidableEq, Repr

def bestPathGo (best : PathCand) : List PathCand → PathCand
  | [] => best
  | c :: rest =>
    if (jsUndef c.f).lt (jsUndef best.f) then bestPathGo c rest else bestPathGo best rest

def bestPath : List PathCand → Option PathCand
  | [] => none
  | c :: rest => some (bestPathGo c rest)

/-! ### `resolveTies` (src/unnamed/part_000, lines 292-410)

A tie candidate is one of the neighbor Node objects collected during an
expansion.  `resolveTies` reads `x`, `y`, `f`, `g` and `direction` and
writes `g` only.  The `h` field is carried along to state the f = g + h
invariant of the claims.  `TIE_BREAKER = turnPenalty / 100` reads the free
variable `turnPenalty`, which in the repository is the implicit global set
by the control panel (visual/js/panel.js line 56) to the configured turn
penalty; it is passed here as an explicit parameter.  The source mutates at
most one candidate in place; the embedding returns the updated list. -/

structure TieCand where
  x : Int
  y : Int
  g : JNum
  h : JNum
  f : JNum
  direction : Option Int
deriving DecidableEq, Repr

/-- `minFVal === candidate.f`; `minFVal` may be `undefined`. -/
def tieFMatch (minF : Option JNum) (c : TieCand) : Bool :=
  match minF with
  | some m => m.seq c.f
  | none => false

/-- The pair condition of the two nested scan loops; the three-way variant
additionally requires a shared x- or y-coordinate. -/
def pairMatch (threeWay : Bool) (minF : Option JNum) (a b : TieCand) : Bool :=
  a.f.seq b.f && tieFMatch minF a && (!threeWay || (a.x == b.x || a.y == b.y))

/-- Inner `j` loop: first partner for `a` in the remainder of the list,
with its offset. -/
def tieInnerScan (threeWay : Bool) (minF : Option JNum) (a : TieCand) :
    List TieCand → Option (Nat × TieCand)
  | [] => none
  | b :: rest =>
    if pairMatch threeWay minF a b then some (0, b)
    else (tieInnerScan threeWay minF a rest).map (fun p => (p.1 + 1, p.2))

/-- Outer `i` loop: the first (lexicographically earliest) qualifying pair
`(neighborA, neighborB)` together with their indices. -/
def tieOuterScan (threeWay : Bool) (minF : Option JNum) :
    List TieCand → Option (Nat × TieCand × Nat × TieCand)
  | [] => none
  | a :: rest =>
    match tieInnerScan threeWay minF a rest with
    | some (j, b) => some (0, a, j + 1, b)
    | none =>
      (tieOuterScan threeWay minF rest).map
        (fun r => (r.1 + 1, r.2.1, r.2.2.1 + 1, r.2.2.2))

/-- The six sequential direction-pair comparisons assigning `tieCase`.
The conditions are mutually exclusive, so the if-chain is equivalent to the
source's sequence of independent ifs. -/
def tieCase (da db : Option Int) : Option Nat :=
  if (da = some 0 ∧ db = some 1) ∨ (da = some 1 ∧ db = some 0) then some 0
  else if (da = some 0 ∧ db = some 2) ∨ (da = some 2 ∧ db = some 0) then some 1
  else if (da = some 0 ∧ db = some 3) ∨ (da = some 3 ∧ db = some 0) then some 2
  else if (da = some 1 ∧ db = some 2) ∨ (da = some 2 ∧ db = some 1) then some 3
  else if (da = some 3 ∧ db = some 1) ∨ (da = some 1 ∧ db = some 3) then some 4
  else if (da = some 2 ∧ db = some 3) ∨ (da = some 3 ∧ db = some 2) then some 5
  else none

/-- JavaScript `===` between a direction field and a preference-table entry,
either of which may be `undefined`. -/
def jsEqOptInt : Option Int → Option Int → Bool
  | some a, some b => decide (a = b)
  | none, none => true
  | _, _ => false

def resolveTies (turnPenalty : ℚ) (cands : List TieCand) (minF : Option JNum)
    (preferences : List Int) : List TieCand :=
  let tieBreaker : ℚ := turnPenalty / 100
  let threeWay : Bool := decide (2 < cands.countP (fun c => tieFMatch minF c))
  match tieOuterScan threeWay minF cands with
  | none => cands
  | some (i, a, j, b) =>
    match tieCase a.direction b.direction with
    | none => cands
    | some tc =>
      if jsEqOptInt a.direction (preferences.get? tc) then
        cands.set i { a with g := a.g.sub (.num tieBreaker) }
      else if jsEqOptInt b.direction (preferences.get? tc) then
        cands.set j { b with g := b.g.sub (.num tieBreaker) }
      else cands

/-! ### The search engine (src/src/finders/AStarFinder.js, lines 62-322)

The Grid, OpenList and Heuristic collaborators are external to the
repository (spec section 6); their operations are modelled from the spec
where marked.  Engine nodes (`NodeData`) carry exactly the search-scoped
fields the engine reads or writes; note that no `direction` field exists —
`findPath` never assigns one. -/

def JNum.abs : JNum → JNum
  | num q => num |q|
  | nan => nan

/-- Search-scoped Node fields; everything starts `undefined`/falsy. -/
structure NodeData where
  g : Option JNum := none
  h : Option JNum := none
  f : Option JNum := none
  opened : Bool := false
  closed : Bool := false
  parent : Option Coord := none
  lastTurn : Bool := false
  lastTurnX : Option Int := none
  lastTurnY : Option Int := none
deriving DecidableEq, Repr

/-- Grid state: dimensions, walkability, and the per-node search fields.
Modelled from the spec: the Grid collaborator owns cell storage and
walkability (spec sections 2 and 6). -/
structure SearchState where
  width : Nat
  height : Nat
  walk : Coord → Bool
  nodes : Coord → NodeData

def SearchState.setWalkable (st : SearchState) (p : Coord) (b : Bool) : SearchState :=
  { st with walk := fun q => if q = p then b else st.walk q }

def SearchState.setNode (st : SearchState) (p : Coord) (d : NodeData) : SearchState :=
  { st with nodes := fun q => if q = p then d else st.nodes q }

def SearchState.inside (st : SearchState) (p : Coord) : Bool :=
  decide (0 ≤ p.1) && decide (p.1 < (st.width : Int)) &&
    decide (0 ≤ p.2) && decide (p.2 < (st.height : Int))

/-- Modelled from the spec: the external Grid collaborator's
`getNeighbors(node, DiagonalMovement.Never)` — the walkable in-bounds
orthogonal neighbors, enumerated up, right, down, left.  `Never` is the
diagonal policy of every configuration evaluated by the theorems below
(the constructor selects it when `allowDiagonal` is not set). -/
def SearchState.neighborsNever (st : SearchState) (p : Coord) : List Coord :=
  [(p.1, p.2 - 1), (p.1 + 1, p.2), (p.1, p.2 + 1), (p.1 - 1, p.2)].filter
    (fun q => st.inside q && st.walk q)

/-- Modelled from the spec: `Grid.cleanUp(dirtyCoords, exceptCoord)`
resets the search-scoped fields of the listed nodes except the protected
coordinate (spec section 6). -/
def SearchState.cleanUp (st : SearchState) (dirty : List Coord) (keep : Option Coord) :
    SearchState :=
  { st with nodes := fun q => if q ∈ dirty ∧ some q ≠ keep then {} else st.nodes q }

/-- Modelled from the spec: the external OpenList collaborator — ascending-f
priority with stable order among equal keys; popping returns the
earliest-inserted node of minimal f (key-decrease repositioning is a no-op
in this model because the minimum is recomputed at pop time). -/
def popMin (st : SearchState) : List Coord → Option (Coord × List Coord)
  | [] => none
  | c :: rest =>
    match popMin st rest with
    | none => some (c, [])
    | some (m, rest2) =>
      if (jsUndef (st.nodes m).f).lt (jsUndef (st.nodes c).f) then some (m, c :: rest2)
      else some (c, rest)

/-- `Heuristic.manhattan(dx, dy) = dx + dy` — modelled from the spec; the
default heuristic of the configurations evaluated below. -/
def manhattan (dx dy : JNum) : JNum := dx.add dy

/-- The configuration fields the constructor stores on the finder
(AStarFinder.js lines 62-98), with the constructor's defaults. -/
structure FinderCfg where
  heuristic : JNum → JNum → JNum
  weight : ℚ := 1
  avoidStaircase : Bool := false
  turnPenalty : ℚ := 1/1000
  useMomentum : Option Bool := none
  momentum : ℚ := 1/10000
  breakTies : Option Bool := none
  ignoreStartTies : Option Bool := none
  preferences : List Int := []

/-- `this.maxIterations = 2 + (this.breakTies && !this.ignoreStartTies)`
(AStarFinder.js line 76) under JavaScript evaluation: `a && b` yields `a`
when `a` is falsy, so an omitted `breakTies` gives `2 + undefined = NaN`;
`false` gives `2 + false = 2`; `true` gives `2 + !ignoreStartTies`. -/
def maxIterationsInit (breakTies ignoreStartTies : Option Bool) : JNum :=
  match breakTies with
  | none => .nan
  | some false => .num 2
  | some true => if jsTruthy ignoreStartTies then .num 2 else .num 3

/-- The cost-shaping block of the neighbor loop (lines 227-259): base step
cost, then, under `avoidStaircase`, the turn penalty and the momentum
terms.  Returns the tentative `ng` with the updated current node and
neighbor records: the block runs before the relaxation test and mutates
the last-turn bookkeeping unconditionally — in particular
`if (node.lastTurn = true)` is an assignment, and on a turn
`neighbor.lastTurnX/Y` are overwritten with the current node's coordinates
before the momentum add-back reads them.  Arithmetic follows JavaScript:
`undefined` operands give NaN and `0 * NaN = NaN`. -/
def shapedCost (cfg : FinderCfg) (ncoord : Coord) (node : NodeData)
    (nbcoord : Coord) (nb : NodeData) : JNum × NodeData × NodeData :=
  let ng := (jsUndef node.g).add
    (.num (if nbcoord.1 - ncoord.1 = 0 ∨ nbcoord.2 - ncoord.2 = 0 then 1 else SQRT2))
  if ¬ cfg.avoidStaircase then (ng, node, nb)
  else
    let turned : Bool :=
      match node.parent with
      | none => false
      | some par =>
        decide (ncoord.1 - par.1 ≠ nbcoord.1 - ncoord.1 ∨
                ncoord.2 - par.2 ≠ nbcoord.2 - ncoord.2)
    let ng1 := ng.add (.num (if turned then cfg.turnPenalty else 0))
    let node1 := if turned then node else { node with lastTurn := true }
    let nb1 :=
      if turned then
        { nb with lastTurn := true, lastTurnX := some ncoord.1, lastTurnY := some ncoord.2 }
      else { nb with lastTurnX := node.lastTurnX, lastTurnY := node.lastTurnY }
    let ng2 := ng1.sub (((JNum.num cfg.momentum).mul
      (.num (if turned then 0 else 1))).mul (jsNumOfBool cfg.useMomentum))
    let hdist := cfg.heuristic
      (((JNum.num (ncoord.1 : ℚ)).sub (jsUndefInt nb1.lastTurnX)).abs)
      (((JNum.num (ncoord.2 : ℚ)).sub (jsUndefInt nb1.lastTurnY)).abs)
    let ng3 := ng2.add ((((JNum.num cfg.momentum).mul
      (.num (if turned then 1 else 0))).mul hdist).mul (jsNumOfBool cfg.useMomentum))
    (ng3, node1, nb1)

/-- State threaded through the neighbor loop of one expansion. -/
structure ExpandState where
  st : SearchState
  openL : List Coord
  added : List Coord
  prevF : Option JNum
  minF : Option JNum
  dirty : List Coord

/-- One pass of the `for each neighbor` loop body (lines 217-293). -/
def relaxNeighbor (cfg : FinderCfg) (endC : Coord) (ncoord : Coord)
    (es : ExpandState) (nbc : Coord) : ExpandState :=
  let node := es.st.nodes ncoord
  let nb := es.st.nodes nbc
  if nb.closed then es
  else
    let r := shapedCost cfg ncoord node nbc nb
    let ng := r.1
    let st1 := (es.st.setNode ncoord r.2.1).setNode nbc r.2.2
    let nb1 := r.2.2
    if ¬ nb1.opened ∨ (ng.lt (jsUndef nb1.g)) then
      let hstored := jsUndef nb1.h
      let hval := if hstored.truthy then hstored
        else (JNum.num cfg.weight).mul (cfg.heuristic
          (((JNum.num (nbc.1 : ℚ)).sub (.num (endC.1 : ℚ))).abs)
          (((JNum.num (nbc.2 : ℚ)).sub (.num (endC.2 : ℚ))).abs))
      let fval := ng.add hval
      let nb2 := { nb1 with
        g := some ng
        h := some hval
        f := some fval
        parent := some ncoord }
      let st2 := st1.setNode nbc nb2
      let newMin := if (jsUndef es.prevF).gt fval || es.prevF = none then some fval else es.minF
      if ¬ nb1.opened then
        { st := st2
          openL := es.openL ++ [nbc]
          added := es.added ++ [nbc]
          prevF := some fval
          minF := newMin
          dirty := es.dirty ++ [nbc] }
      else
        { es with st := st2, prevF := some fval, minF := newMin }
    else
      { es with st := st1 }

/-- Lines 295-308: whether this expansion invokes `resolveTies`.  Both
branches invoke it with identical arguments, so the decision is the whole
effect of the if/else-if chain. -/
def tieResolutionInvoked (breakTies ignoreStartTies : Option Bool)
    (atStartNode : Bool) : Bool :=
  if jsTruthy breakTies && jsTruthy ignoreStartTies && !atStartNode then true
  else if jsTruthy breakTies then true
  else false

/-- The engine hands the freshly inserted neighbor Node objects to
`resolveTies`.  Engine nodes carry no `direction` field (`findPath` never
assigns one), so every extracted candidate's direction is `undefined`. -/
def engineTieCand (st : SearchState) (p : Coord) : TieCand :=
  { x := p.1, y := p.2, g := jsUndef (st.nodes p).g, h := jsUndef (st.nodes p).h,
    f := jsUndef (st.nodes p).f, direction := none }

/-- Write the (possibly adjusted) g fields back into the store — the
source mutates the shared Node objects in place. -/
def writeTieResults (st : SearchState) : List Coord → List TieCand → SearchState
  | [], _ => st
  | _, [] => st
  | p :: ps, c :: cs => writeTieResults (st.setNode p { st.nodes p with g := some c.g }) ps cs

def applyResolveTies (cfg : FinderCfg) (st : SearchState) (added : List Coord)
    (minF : Option JNum) : SearchState :=
  writeTieResults st added
    (resolveTies cfg.turnPenalty (added.map (engineTieCand st)) minF cfg.preferences)

inductive LoopOutcome where
  | foundEnd (st : SearchState) (dirty : List Coord)
  | exhausted (st : SearchState)
  | outOfFuel

/-- The `while (!openList.empty())` loop (lines 165-310).  `minF` is the
function-scoped `minFVal` (carried across expansions; `prevFVal` is
re-declared per expansion). -/
def searchLoop (cfg : FinderCfg) (endC : Coord) :
    Nat → SearchState → List Coord → List Coord → Option JNum → Bool → LoopOutcome
  | 0, _, _, _, _, _ => .outOfFuel
  | fuel + 1, st, openL, dirty, minF, atStart =>
    match popMin st openL with
    | none => .exhausted st
    | some (node, openRest) =>
      let st1 := st.setNode node { st.nodes node with closed := true }
      if node = endC then .foundEnd st1 dirty
      else
        let es0 : ExpandState :=
          { st := st1, openL := openRest, added := [], prevF := none,
            minF := minF, dirty := dirty }
        let es := (st1.neighborsNever node).foldl (relaxNeighbor cfg endC node) es0
        let st2 :=
          if tieResolutionInvoked cfg.breakTies cfg.ignoreStartTies atStart then
            applyResolveTies cfg es.st es.added es.minF
          else es.st
        searchLoop cfg endC fuel st2 es.openL es.dirty es.minF false

/-- `Util.backtrace` applied to a Node of the live store: follow parent
coordinates to the root (root-first order, as after the source's
`reverse()`).  Engine parent chains are finite; fuel bounds the walk. -/
def backtraceStore (st : SearchState) : Nat → Coord → List Coord
  | 0, p => [p]
  | fuel + 1, p =>
    match (st.nodes p).parent with
    | none => [p]
    | some q => backtraceStore st fuel q ++ [p]

/-- The `structuredClone(endNode)` snapshot pushed onto `paths`: terminal
f-score plus the path carried by the cloned parent chain. -/
def mkCandidate (st : SearchState) (endC : Coord) (fuel : Nat) : PathCand :=
  { f := (st.nodes endC).f, path := backtraceStore st fuel endC }

/-- `AStarFinder.prototype.findPath` (lines 105-322).  Fuel bounds the
self-recursion and the inner loop; every theorem below evaluates a run
whose depth is far below the supplied fuel.  Errors model JavaScript
TypeErrors.  `if (paths)` tests an array for truthiness, and a JavaScript
array — including the empty array — is always truthy: the top test
distinguishes only the `undefined` first call, and in the fail branch at
the bottom (lines 315-318) the test is always taken, so the final
`return []` of line 321 is unreachable and a failed search reaches
`Util.backtrace(bestPath([]))`, i.e. `backtrace(undefined)`. -/
def findPath (cfg : FinderCfg) (maxIterations : JNum) (startC endC : Coord) :
    Nat → SearchState → Option (List PathCand) → Option Coord → Option Nat →
    Except String (List Coord)
  | 0, _, _, _, _ => .error "out of fuel"
  | fuel + 1, st0, pathsIn, firstTileTaken, iterationsIn =>
    match
      (match pathsIn with
       | none => Except.ok st0
       | some _ =>
         match firstTileTaken with
         | none => Except.error "TypeError: firstTileTaken is undefined"
         | some t => Except.ok (st0.setWalkable t false)) with
    | .error e => .error e
    | .ok st1 =>
      let iterations := iterationsIn.getD 1
      let paths := pathsIn.getD []
      let stS := st1.setNode startC
        { st1.nodes startC with g := some (.num 0), f := some (.num 0), opened := true }
      match searchLoop cfg endC fuel stS [startC] [startC] none true with
      | .outOfFuel => .error "out of fuel"
      | .exhausted _ =>
        match bestPath paths with
        | none => .error "TypeError: undefined node in backtrace"
        | some c => .ok c.path
      | .foundEnd stF dirtyF =>
        let iterations2 := iterations + 1
        let paths2 := paths ++ [mkCandidate stF endC fuel]
        if (JNum.num (iterations2 : ℚ)).gt maxIterations then
          match bestPath paths2 with
          | none => .error "TypeError: undefined node in backtrace"
          | some c => .ok c.path
        else
          let thisPath := backtraceStore stF fuel endC
          if thisPath.length = 2 then .ok thisPath
          else
            let firstTile := thisPath.get? 1
            findPath cfg maxIterations startC endC fuel (stF.cleanUp dirtyF firstTile)
              (some paths2) firstTile (some iterations2)

/-! ### Concrete inputs used by the evaluation theorems -/

/-- The default finder configuration: manhattan heuristic, weight 1, no
staircase avoidance, no momentum, no tie-breaking. -/
def cfgDefault : FinderCfg := { heuristic := manhattan }

/-- avoidStaircase and useMomentum both enabled (defaults elsewhere). -/
def cfgMomentum : FinderCfg :=
  { heuristic := manhattan, avoidStaircase := true, useMomentum := some true }

/-- A 1-by-1 grid whose single cell is walkable, all fields untouched. -/
def grid1x1 : SearchState :=
  { width := 1, height := 1, walk := fun _ => true, nodes := fun _ => {} }

/-- A 2-by-1 grid whose goal cell (1,0) is not walkable. -/
def grid2x1 : SearchState :=
  { width := 2, height := 1, walk := fun p => p ≠ (1, 0), nodes := fun _ => {} }

/-! ### Predicates used by the theorem statements -/

/-- Chebyshev adjacency of two cells: they differ by at most 1 per axis. -/
def adjStep (a b : Coord) : Bool :=
  decide ((b.1 - a.1).natAbs ≤ 1) && decide ((b.2 - a.2).natAbs ≤ 1)

/-- All consecutive points of the path are Chebyshev-adjacent. -/
def chainAdj : List Coord → Bool
  | a :: b :: rest => adjStep a b && chainAdj (b :: rest)
  | _ => true

def allWalkable (walk : Int → Int → Bool) (path : List Coord) : Bool :=
  path.all (fun p => walk p.1 p.2)

/-- Every cell of the Bresenham interpolation of the segment from a to b
is walkable — i.e. the segment's interpolation crosses no non-walkable
cell. -/
def clearSeg (walk : Int → Int → Bool) (a b : Coord) : Bool :=
  (interpolate a.1 a.2 b.1 b.2).all (fun q => walk q.1 q.2)

/-- Every segment between consecutive points of the path is clear. -/
def chainClear (walk : Int → Int → Bool) : List Coord → Bool
  | a :: b :: rest => clearSeg walk a b && chainClear walk (b :: rest)
  | _ => true

/-- A king-move unit direction: nonzero, each component in {-1, 0, 1}. -/
def unitDir (u : Coord) : Bool :=
  (decide (u.1.natAbs ≤ 1) && decide (u.2.natAbs ≤ 1)) && !(decide (u = ((0 : Int), (0 : Int))))

/-- A segment aligned with one of the eight grid directions: nonzero and
horizontal, vertical or exactly diagonal. -/
def octSeg (a b : Coord) : Bool :=
  !(decide (b.1 = a.1) && decide (b.2 = a.2)) &&
    (decide (b.1 = a.1) || decide (b.2 = a.2) ||
      decide ((b.1 - a.1).natAbs = (b.2 - a.2).natAbs))

/-- Every consecutive segment of the path is grid-aligned. -/
def chainOct : List Coord → Bool
  | a :: b :: rest => octSeg a b && chainOct (b :: rest)
  | _ => true

/-- The normalized direction of the segment from a to b. -/
def segDir (a b : Coord) : Option Coord := normDir (b.1 - a.1) (b.2 - a.2)

/-- After a segment of direction d, consecutive segment directions all
differ from their predecessor. -/
def noColinFrom (d : Option Coord) : List Coord → Bool
  | a :: b :: rest => decide (segDir a b ≠ d) && noColinFrom (segDir a b) (b :: rest)
  | _ => true

/-- No interior point of the path is redundant: consecutive segments never
share a normalized direction. -/
def noColin : List Coord → Bool
  | a :: b :: rest => noColinFrom (segDir a b) (b :: rest)
  | _ => true

/-- The straight run of k points following p in unit direction u. -/
def runPts (p u : Coord) (k : Nat) : List Coord :=
  (List.range k).map
    (fun (i : Nat) => (p.1 + ((i : Int) + 1) * u.1, p.2 + ((i : Int) + 1) * u.2))

/-! ## Lemmas about `interpolate` -/

theorem interpGo_step (x1 y1 dx dy sx sy : Int) (fuel : Nat) (x y err : Int)
    (hne : ¬ (x = x1 ∧ y = y1)) :
    interpGo x1 y1 dx dy sx sy (fuel + 1) x y err =
      (x, y) :: interpGo x1 y1 dx dy sx sy fuel
        (if 2 * err > -dy then x + sx else x)
        (if 2 * err < dx then y + sy else y)
        (if 2 * err < dx then (if 2 * err > -dy then err - dy else err) + dx
         else (if 2 * err > -dy then err - dy else err)) := by
  simp only [interpGo, if_neg hne]

theorem interpGo_stop (x1 y1 dx dy sx sy : Int) (fuel : Nat) (err : Int) :
    interpGo x1 y1 dx dy sx sy (fuel + 1) x1 y1 err = [(x1, y1)] := by
  simp [interpGo]

theorem interpolate_self (x y : Int) : interpolate x y x y = [(x, y)] := by
  simp [interpolate, interpGo]

theorem interpolate_cons (x0 y0 x1 y1 : Int) :
    interpolate x0 y0 x1 y1 = (x0, y0) :: (interpolate x0 y0 x1 y1).tail := by
  by_cases h : x0 = x1 ∧ y0 = y1
  · obtain ⟨h1, h2⟩ := h; subst h1; subst h2; rw [interpolate_self]; rfl
  · rw [interpolate, interpGo_step _ _ _ _ _ _ _ _ _ _ h]; rfl

theorem runPts_zero (p u : Coord) : runPts p u 0 = [] := by
  simp [runPts]

theorem runPts_cons (p u : Coord) (k : Nat) :
    runPts p u (k + 1) =
      (p.1 + u.1, p.2 + u.2) :: runPts (p.1 + u.1, p.2 + u.2) u k := by
  simp only [runPts, List.range_succ_eq_map, List.map_cons, List.map_map]
  refine List.cons_eq_cons.mpr ⟨by simp, ?_⟩
  apply List.map_congr_left
  intro i hi
  simp only [Function.comp_apply, Prod.mk.injEq]
  push_cast
  constructor <;> ring

theorem runPts_succ (p u : Coord) (k : Nat) :
    runPts p u (k + 1) =
      runPts p u k ++ [(p.1 + ((k : Int) + 1) * u.1, p.2 + ((k : Int) + 1) * u.2)] := by
  simp [runPts, List.range_succ]

theorem interpGo_horiz (y x1 s sy : Int) (hs : s = 1 ∨ s = -1) (dx : Int) (hdx : 1 ≤ dx) :
    ∀ (j : Nat) (fuel : Nat) (x : Int), x1 = x + j * s → j < fuel →
      interpGo x1 y dx 0 s sy fuel x y dx = (x, y) :: runPts (x, y) (s, 0) j := by
  intro j
  induction j with
  | zero =>
    intro fuel x hx hf
    obtain ⟨fuel2, rfl⟩ : ∃ m, fuel = m + 1 := ⟨fuel - 1, by omega⟩
    have hx1 : x1 = x := by omega
    subst hx1
    rw [interpGo_stop, runPts_zero]
  | succ j ih =>
    intro fuel x hx hf
    obtain ⟨fuel2, rfl⟩ : ∃ m, fuel = m + 1 := ⟨fuel - 1, by omega⟩
    have hxne : x ≠ x1 := by
      rcases hs with h | h <;> subst h <;> simp only [mul_one, mul_neg] at hx <;> omega
    have hne : ¬ (x = x1 ∧ y = y) := by
      intro hc
      exact hxne hc.1
    rw [interpGo_step _ _ _ _ _ _ _ _ _ _ hne]
    have hgt : 2 * dx > -(0 : Int) := by omega
    have hlt : ¬ (2 * dx < dx) := by omega
    simp only [if_pos hgt, if_neg hlt, sub_zero]
    have hx2 : x1 = (x + s) + j * s := by rw [hx]; push_cast; ring
    rw [ih fuel2 (x + s) hx2 (by omega), runPts_cons]
    simp

theorem interpGo_vert (x y1 t sx : Int) (ht : t = 1 ∨ t = -1) (dy : Int) (hdy : 1 ≤ dy) :
    ∀ (j : Nat) (fuel : Nat) (y : Int), y1 = y + j * t → j < fuel →
      interpGo x y1 0 dy sx t fuel x y (-dy) = (x, y) :: runPts (x, y) (0, t) j := by
  intro j
  induction j with
  | zero =>
    intro fuel y hy hf
    obtain ⟨fuel2, rfl⟩ : ∃ m, fuel = m + 1 := ⟨fuel - 1, by omega⟩
    have hy1 : y1 = y := by omega
    subst hy1
    rw [interpGo_stop, runPts_zero]
  | succ j ih =>
    intro fuel y hy hf
    obtain ⟨fuel2, rfl⟩ : ∃ m, fuel = m + 1 := ⟨fuel - 1, by omega⟩
    have hyne : y ≠ y1 := by
      rcases ht with h | h <;> subst h <;> simp only [mul_one, mul_neg] at hy <;> omega
    have hne : ¬ (x = x ∧ y = y1) := by
      intro hc
      exact hyne hc.2
    rw [interpGo_step _ _ _ _ _ _ _ _ _ _ hne]
    have hgt : ¬ (2 * -dy > -dy) := by omega
    have hlt : 2 * -dy < 0 := by omega
    simp only [if_neg hgt, if_pos hlt, add_zero]
    have hy2 : y1 = (y + t) + j * t := by rw [hy]; push_cast; ring
    rw [ih fuel2 (y + t) hy2 (by omega), runPts_cons]
    simp

theorem interpGo_diag (x1 y1 s t : Int) (hs : s = 1 ∨ s = -1) (ht : t = 1 ∨ t = -1)
    (d : Int) (hd : 1 ≤ d) :
    ∀ (j : Nat) (fuel : Nat) (x y : Int), x1 = x + j * s → y1 = y + j * t → j < fuel →
      interpGo x1 y1 d d s t fuel x y 0 = (x, y) :: runPts (x, y) (s, t) j := by
  intro j
  induction j with
  | zero =>
    intro fuel x y hx hy hf
    obtain ⟨fuel2, rfl⟩ : ∃ m, fuel = m + 1 := ⟨fuel - 1, by omega⟩
    have hx1 : x1 = x := by omega
    have hy1 : y1 = y := by omega
    subst hx1; subst hy1
    rw [interpGo_stop, runPts_zero]
  | succ j ih =>
    intro fuel x y hx hy hf
    obtain ⟨fuel2, rfl⟩ : ∃ m, fuel = m + 1 := ⟨fuel - 1, by omega⟩
    have hxne : x ≠ x1 := by
      rcases hs with h | h <;> subst h <;> simp only [mul_one, mul_neg] at hx <;> omega
    have hne : ¬ (x = x1 ∧ y = y1) := by
      intro hc
      exact hxne hc.1
    rw [interpGo_step _ _ _ _ _ _ _ _ _ _ hne]
    have hgt : 2 * (0 : Int) > -d := by omega
    have hlt : 2 * (0 : Int) < d := by omega
    simp only [if_pos hgt, if_pos hlt, zero_sub, neg_add_cancel]
    have hx2 : x1 = (x + s) + j * s := by rw [hx]; push_cast; ring
    have hy2 : y1 = (y + t) + j * t := by rw [hy]; push_cast; ring
    rw [ih fuel2 (x + s) (y + t) hx2 hy2 (by omega), runPts_cons]

theorem interpolate_eq_go (x0 y0 x1 y1 : Int) :
    interpolate x0 y0 x1 y1 =
      interpGo x1 y1 ((x1 - x0).natAbs) ((y1 - y0).natAbs)
        (if x0 < x1 then 1 else -1) (if y0 < y1 then 1 else -1)
        ((x1 - x0).natAbs + (y1 - y0).natAbs + 1) x0 y0
        (((x1 - x0).natAbs : Int) - ((y1 - y0).natAbs : Int)) := rfl

/-- The interpolation of a straight grid-aligned segment of length k in
unit direction u is the k+1 cells of that run, endpoints included. -/
theorem interpolate_straight (x y : Int) (u : Coord) (hu : unitDir u = true) (k : Nat)
    (hk : 1 ≤ k) :
    interpolate x y (x + k * u.1) (y + k * u.2) = (x, y) :: runPts (x, y) u k := by
  obtain ⟨u1, u2⟩ := u
  simp only [unitDir, Bool.and_eq_true, decide_eq_true_eq, Bool.not_eq_true',
    decide_eq_false_iff_not, Prod.mk.injEq] at hu
  obtain ⟨⟨ha1, ha2⟩, hz⟩ := hu
  have h1 : u1 = -1 ∨ u1 = 0 ∨ u1 = 1 := by omega
  have h2 : u2 = -1 ∨ u2 = 0 ∨ u2 = 1 := by omega
  have hk0 : (0 : Int) < (k : Int) := by omega
  rcases h1 with rfl | rfl | rfl <;> rcases h2 with rfl | rfl | rfl
  · -- u = (-1, -1)
    rw [interpolate_eq_go]
    rw [show (x + (k : Int) * (-1) - x).natAbs = k by omega,
        show (y + (k : Int) * (-1) - y).natAbs = k by omega,
        if_neg (show ¬ x < x + (k : Int) * (-1) by omega),
        if_neg (show ¬ y < y + (k : Int) * (-1) by omega),
        show ((k : Nat) : Int) - ((k : Nat) : Int) = 0 by ring]
    exact interpGo_diag _ _ _ _ (Or.inr rfl) (Or.inr rfl) k (by omega) k (k + k + 1) x y
      (by ring) (by ring) (by omega)
  · -- u = (-1, 0)
    rw [interpolate_eq_go]
    rw [show (x + (k : Int) * (-1) - x).natAbs = k by omega,
        show (y + (k : Int) * 0 - y).natAbs = 0 by omega,
        if_neg (show ¬ x < x + (k : Int) * (-1) by omega),
        show (y + (k : Int) * 0) = y by ring,
        show ((k : Nat) : Int) - ((0 : Nat) : Int) = (k : Int) by simp]
    have := interpGo_horiz y (x + (k : Int) * (-1)) (-1) (if y < y then 1 else -1)
      (Or.inr rfl) k (by omega) k (k + 0 + 1) x (by ring) (by omega)
    exact this
  · -- u = (-1, 1)
    rw [interpolate_eq_go]
    rw [show (x + (k : Int) * (-1) - x).natAbs = k by omega,
        show (y + (k : Int) * 1 - y).natAbs = k by omega,
        if_neg (show ¬ x < x + (k : Int) * (-1) by omega),
        if_pos (show y < y + (k : Int) * 1 by omega),
        show ((k : Nat) : Int) - ((k : Nat) : Int) = 0 by ring]
    exact interpGo_diag _ _ _ _ (Or.inr rfl) (Or.inl rfl) k (by omega) k (k + k + 1) x y
      (by ring) (by ring) (by omega)
  · -- u = (0, -1)
    rw [interpolate_eq_go]
    rw [show (x + (k : Int) * 0 - x).natAbs = 0 by omega,
        show (y + (k : Int) * (-1) - y).natAbs = k by omega,
        if_neg (show ¬ y < y + (k : Int) * (-1) by omega),
        show (x + (k : Int) * 0) = x by ring,
        show ((0 : Nat) : Int) - ((k : Nat) : Int) = -(k : Int) by simp]
    have := interpGo_vert x (y + (k : Int) * (-1)) (-1) (if x < x then 1 else -1)
      (Or.inr rfl) k (by omega) k (0 + k + 1) y (by ring) (by omega)
    exact this
  · -- u = (0, 0): excluded
    exact absurd ⟨rfl, rfl⟩ hz
  · -- u = (0, 1)
    rw [interpolate_eq_go]
    rw [show (x + (k : Int) * 0 - x).natAbs = 0 by omega,
        show (y + (k : Int) * 1 - y).natAbs = k by omega,
        if_pos (show y < y + (k : Int) * 1 by omega),
        show (x + (k : Int) * 0) = x by ring,
        show ((0 : Nat) : Int) - ((k : Nat) : Int) = -(k : Int) by simp]
    have := interpGo_vert x (y + (k : Int) * 1) 1 (if x < x then 1 else -1)
      (Or.inl rfl) k (by omega) k (0 + k + 1) y (by ring) (by omega)
    exact this
  · -- u = (1, -1)
    rw [interpolate_eq_go]
    rw [show (x + (k : Int) * 1 - x).natAbs = k by omega,
        show (y + (k : Int) * (-1) - y).natAbs = k by omega,
        if_pos (show x < x + (k : Int) * 1 by omega),
        if_neg (show ¬ y < y + (k : Int) * (-1) by omega),
        show ((k : Nat) : Int) - ((k : Nat) : Int) = 0 by ring]
    exact interpGo_diag _ _ _ _ (Or.inl rfl) (Or.inr rfl) k (by omega) k (k + k + 1) x y
      (by ring) (by ring) (by omega)
  · -- u = (1, 0)
    rw [interpolate_eq_go]
    rw [show (x + (k : Int) * 1 - x).natAbs = k by omega,
        show (y + (k : Int) * 0 - y).natAbs = 0 by omega,
        if_pos (show x < x + (k : Int) * 1 by omega),
        show (y + (k : Int) * 0) = y by ring,
        show ((k : Nat) : Int) - ((0 : Nat) : Int) = (k : Int) by simp]
    have := interpGo_horiz y (x + (k : Int) * 1) 1 (if y < y then 1 else -1)
      (Or.inl rfl) k (by omega) k (k + 0 + 1) x (by ring) (by omega)
    exact this
  · -- u = (1, 1)
    rw [interpolate_eq_go]
    rw [show (x + (k : Int) * 1 - x).natAbs = k by omega,
        show (y + (k : Int) * 1 - y).natAbs = k by omega,
        if_pos (show x < x + (k : Int) * 1 by omega),
        if_pos (show y < y + (k : Int) * 1 by omega),
        show ((k : Nat) : Int) - ((k : Nat) : Int) = 0 by ring]
    exact interpGo_diag _ _ _ _ (Or.inl rfl) (Or.inl rfl) k (by omega) k (k + k + 1) x y
      (by ring) (by ring) (by omega)

/-- Adjacent distinct cells interpolate to exactly the two endpoints. -/
theorem interpolate_adjacent (a b : Coord) (hadj : adjStep a b = true) (hne : a ≠ b) :
    interpolate a.1 a.2 b.1 b.2 = [a, b] := by
  simp only [adjStep, Bool.and_eq_true, decide_eq_true_eq] at hadj
  have hu : unitDir (b.1 - a.1, b.2 - a.2) = true := by
    simp only [unitDir, Bool.and_eq_true, decide_eq_true_eq, Bool.not_eq_true',
      decide_eq_false_iff_not, Prod.mk.injEq]
    refine ⟨⟨hadj.1, hadj.2⟩, fun hc => hne ?_⟩
    have h1 : a.1 = b.1 := by omega
    have h2 : a.2 = b.2 := by omega
    exact Prod.ext h1 h2
  have hs := interpolate_straight a.1 a.2 (b.1 - a.1, b.2 - a.2) hu 1 le_rfl
  simp only [Nat.cast_one, one_mul] at hs
  rw [show a.1 + (b.1 - a.1) = b.1 by ring, show a.2 + (b.2 - a.2) = b.2 by ring] at hs
  rw [hs, runPts_cons, runPts_zero]
  simp [show a.1 + (b.1 - a.1) = b.1 by ring, show a.2 + (b.2 - a.2) = b.2 by ring]

/-! ## Lemmas for `smoothenPath` -/

theorem clearSeg_of_not_blocked (walk : Int → Int → Bool) (s c : Coord)
    (hw : walk s.1 s.2 = true) (hb : lineBlocked walk s.1 s.2 c.1 c.2 = false) :
    clearSeg walk s c = true := by
  rw [clearSeg, interpolate_cons, List.all_cons]
  simp only [Bool.and_eq_true]
  refine ⟨hw, ?_⟩
  simp only [lineBlocked, List.drop_one, List.any_eq_false] at hb
  rw [List.all_eq_true]
  intro q hq
  have := hb q hq
  simpa using this

theorem clearSeg_of_adjacent (walk : Int → Int → Bool) (a b : Coord)
    (ha : walk a.1 a.2 = true) (hb : walk b.1 b.2 = true) (hadj : adjStep a b = true) :
    clearSeg walk a b = true := by
  by_cases hab : a = b
  · subst hab
    rw [clearSeg, show interpolate a.1 a.2 a.1 a.2 = [(a.1, a.2)] from interpolate_self _ _]
    simpa using ha
  · rw [clearSeg, interpolate_adjacent a b hadj hab]
    simp [ha, hb]

theorem smoothenGo_clear (walk : Int → Int → Bool) :
    ∀ (rest : List Coord) (s prev : Coord),
      walk s.1 s.2 = true → clearSeg walk s prev = true →
      allWalkable walk (prev :: rest) = true → chainAdj (prev :: rest) = true →
      chainClear walk
        (s :: (smoothenGo walk s prev rest ++
          [(prev :: rest).getLast (List.cons_ne_nil _ _)])) = true := by
  intro rest
  induction rest with
  | nil =>
    intro s prev hws hcl hall hadj
    simp [smoothenGo, chainClear, hcl]
  | cons c rest ih =>
    intro s prev hws hcl hall hadj
    simp only [allWalkable, List.all_cons, Bool.and_eq_true] at hall
    have hwprev : walk prev.1 prev.2 = true := hall.1
    have hwc : walk c.1 c.2 = true := hall.2.1
    have hall2 : allWalkable walk (c :: rest) = true := by
      simp only [allWalkable, List.all_cons, Bool.and_eq_true]
      exact hall.2
    rw [show chainAdj (prev :: c :: rest) = (adjStep prev c && chainAdj (c :: rest))
        from rfl] at hadj
    simp only [Bool.and_eq_true] at hadj
    have hadjpc : adjStep prev c = true := hadj.1
    have hadj2 : chainAdj (c :: rest) = true := hadj.2
    have hlast : (prev :: c :: rest).getLast (List.cons_ne_nil _ _) =
        (c :: rest).getLast (List.cons_ne_nil _ _) := List.getLast_cons _
    rw [smoothenGo, hlast]
    by_cases hb : lineBlocked walk s.1 s.2 c.1 c.2 = true
    · rw [if_pos hb, List.cons_append]
      have hrec := ih prev c hwprev (clearSeg_of_adjacent walk prev c hwprev hwc hadjpc)
        hall2 hadj2
      rw [show chainClear walk (s :: prev ::
            (smoothenGo walk prev c rest ++ [(c :: rest).getLast (List.cons_ne_nil _ _)])) =
          (clearSeg walk s prev && chainClear walk (prev ::
            (smoothenGo walk prev c rest ++ [(c :: rest).getLast (List.cons_ne_nil _ _)])))
          from rfl]
      rw [hcl, hrec]
      rfl
    · rw [if_neg hb]
      have hbf : lineBlocked walk s.1 s.2 c.1 c.2 = false := by
        simpa using hb
      exact ih s c hws (clearSeg_of_not_blocked walk s c hws hbf) hall2 hadj2

/-- C7 (amended): for a nonempty path of walkable, Chebyshev-adjacent grid
cells, `smoothenPath` emits the true start first and the true end last,
and no returned segment's Bresenham interpolation crosses a non-walkable
cell. -/
theorem smoothenPath_clear_and_endpoints (walk : Int → Int → Bool) (path : List Coord)
    (hne : path ≠ []) (hw : allWalkable walk path = true) (hadj : chainAdj path = true) :
    (smoothenPath walk path).head? = path.head? ∧
    (smoothenPath walk path).getLast? = path.getLast? ∧
    chainClear walk (smoothenPath walk path) = true := by
  match path, hne with
  | [p], _ =>
    have hwp : walk p.1 p.2 = true := by
      simp only [allWalkable, List.all_cons, Bool.and_eq_true] at hw
      exact hw.1
    have hcl : clearSeg walk p p = true :=
      clearSeg_of_adjacent walk p p hwp hwp (by simp [adjStep])
    refine ⟨rfl, by simp [smoothenPath], ?_⟩
    simp [smoothenPath, chainClear, hcl]
  | p0 :: p1 :: rest, _ =>
    simp only [allWalkable, List.all_cons, Bool.and_eq_true] at hw
    have hw0 : walk p0.1 p0.2 = true := hw.1
    have hw1 : walk p1.1 p1.2 = true := hw.2.1
    rw [show chainAdj (p0 :: p1 :: rest) = (adjStep p0 p1 && chainAdj (p1 :: rest))
        from rfl] at hadj
    simp only [Bool.and_eq_true] at hadj
    have hcl01 : clearSeg walk p0 p1 = true :=
      clearSeg_of_adjacent walk p0 p1 hw0 hw1 hadj.1
    have hall1 : allWalkable walk (p1 :: rest) = true := by
      simp only [allWalkable, List.all_cons, Bool.and_eq_true]
      exact hw.2
    refine ⟨rfl, ?_, ?_⟩
    · rw [show smoothenPath walk (p0 :: p1 :: rest) =
          p0 :: (smoothenGo walk p0 p1 rest ++
            [(p1 :: rest).getLast (List.cons_ne_nil _ _)]) from rfl]
      rw [← List.cons_append, List.getLast?_concat]
      rw [List.getLast?_eq_getLast _ (List.cons_ne_nil _ _),
          List.getLast_cons (List.cons_ne_nil _ _)]
    · rw [show smoothenPath walk (p0 :: p1 :: rest) =
          p0 :: (smoothenGo walk p0 p1 rest ++
            [(p1 :: rest).getLast (List.cons_ne_nil _ _)]) from rfl]
      exact smoothenGo_clear walk rest p0 p1 hw0 hcl01 hall1 hadj.2

/-- C7 counterexample: on a 5-cell row with cells (1,0) and (3,0) blocked,
the input path (0,0), (2,0), (4,0) — grid cells, all walkable — is
returned unchanged by smoothenPath, and its first returned segment
(0,0)-(2,0) interpolates through the blocked cell (1,0): the claim is
false for paths whose consecutive points are not adjacent. -/
theorem smoothenPath_returns_blocked_segment :
    (fun (walk : Int → Int → Bool) =>
      allWalkable walk [(0, 0), (2, 0), (4, 0)] = true ∧
      smoothenPath walk [(0, 0), (2, 0), (4, 0)] = [(0, 0), (2, 0), (4, 0)] ∧
      chainClear walk (smoothenPath walk [(0, 0), (2, 0), (4, 0)]) = false)
      (fun x y => !(decide (x = 1) && decide (y = 0)) &&
        !(decide (x = 3) && decide (y = 0))) := by
  refine ⟨by decide, by decide, by decide⟩

/-- C7 witness: the amended theorem applied to a concrete walkable
adjacent path. -/
theorem smoothenPath_clear_and_endpoints_witness :
    (smoothenPath (fun _ _ => true) [((0 : Int), (0 : Int)), (1, 1), (2, 1)]).head? =
        [((0 : Int), (0 : Int)), (1, 1), (2, 1)].head? ∧
    (smoothenPath (fun _ _ => true) [((0 : Int), (0 : Int)), (1, 1), (2, 1)]).getLast? =
        [((0 : Int), (0 : Int)), (1, 1), (2, 1)].getLast? ∧
    chainClear (fun _ _ => true)
        (smoothenPath (fun _ _ => true) [((0 : Int), (0 : Int)), (1, 1), (2, 1)]) = true :=
  smoothenPath_clear_and_endpoints (fun _ _ => true) [(0, 0), (1, 1), (2, 1)]
    (by decide) (by decide) (by decide)

/-! ## Lemmas for `backtrace` -/

theorem backtraceChain_length (n : PNode) : (backtraceChain n).length = n.depth + 1 := by
  induction n with
  | root x y => rfl
  | child x y p ih => simp [backtraceChain, PNode.depth, ih]

theorem backtraceChain_head (n : PNode) : (backtraceChain n).head? = some (n.x, n.y) := by
  cases n <;> rfl

theorem backtraceChain_getLast (n : PNode) :
    (backtraceChain n).getLast? = some (n.top.x, n.top.y) := by
  induction n with
  | root x y => rfl
  | child x y p ih =>
    obtain ⟨hd, tl, hcons⟩ : ∃ hd tl, backtraceChain p = hd :: tl := by
      cases p <;> exact ⟨_, _, rfl⟩
    show ((x, y) :: backtraceChain p).getLast? = some (p.top.x, p.top.y)
    rw [hcons, List.getLast?_cons_cons, ← hcons, ih]

/-- C9: backtrace(node) is root-first and node-last, inclusive of both
ends, with length equal to the node's depth in the parent tree plus one. -/
theorem backtrace_endpoints_and_length (n : PNode) :
    (backtrace n).head? = some (n.top.x, n.top.y) ∧
    (backtrace n).getLast? = some (n.x, n.y) ∧
    (backtrace n).length = n.depth + 1 := by
  refine ⟨?_, ?_, ?_⟩
  · rw [backtrace, List.head?_reverse, backtraceChain_getLast]
  · rw [backtrace, List.getLast?_reverse, backtraceChain_head]
  · rw [backtrace, List.length_reverse, backtraceChain_length]

/-- C3: with breakTies and ignoreStartTies both set, the tie-resolution
if/else-if (AStarFinder.js lines 296-306) still invokes resolveTies while
expanding the start node — the else-branch does not re-test
ignoreStartTies — so the claimed skip never happens; resolveTies is
invoked exactly when breakTies is truthy, at every expanded node
including the start node. -/
theorem tieResolution_not_skipped_at_start :
    tieResolutionInvoked (some true) (some true) true = true ∧
    (∀ (br ig : Option Bool) (atStart : Bool),
      tieResolutionInvoked br ig atStart = jsTruthy br) := by decide

/-- C5: with avoidStaircase and useMomentum enabled, the tentative cost of
a neighbor of the start node (no recorded last-turn coordinates) is NaN —
the add-back term multiplies 0 by heuristic(NaN, NaN), and 0 * NaN = NaN —
rather than the claim's 1 - momentum; and on an actual turn the momentum
add-back is identically zero because neighbor.lastTurnX/Y were overwritten
with the current node's own coordinates just before being read (here: a
turn 5 cells after the last recorded turn at (0,0) yields exactly
1 + turnPenalty, with no momentum-times-distance term). -/
theorem momentum_shaping_nan_and_zero_addback :
    (shapedCost cfgMomentum (0, 0) { g := some (.num 0), f := some (.num 0), opened := true } (1, 0) {}).1 = JNum.nan ∧
    (shapedCost cfgMomentum (5, 0) { g := some (.num 0), parent := some (4, 0), lastTurn := true, lastTurnX := some 0, lastTurnY := some 0 } (5, 1) {}).1 = JNum.num (1 + 1 / 1000) := by
  constructor
  · rfl
  · simp [shapedCost, cfgMomentum, manhattan, jsUndef, jsUndefInt, jsNumOfBool,
      JNum.add, JNum.sub, JNum.mul, JNum.abs]

/-- C6: the constructor's `maxIterations = 2 + (breakTies &&
!ignoreStartTies)` evaluates to NaN — not the documented default 2 — when
breakTies is omitted, since `undefined && x` is `undefined` and
`2 + undefined` is NaN; 2 arises only for breakTies false, or breakTies
set with ignoreStartTies set, and 3 when breakTies is set and
ignoreStartTies is not. -/
theorem maxIterations_default_not_two :
    maxIterationsInit none none = JNum.nan ∧ JNum.nan ≠ JNum.num 2 ∧
    maxIterationsInit (some false) none = JNum.num 2 ∧
    maxIterationsInit (some true) none = JNum.num 3 ∧
    maxIterationsInit (some true) (some true) = JNum.num 2 := by decide

/-- C1: a path exists from (0,0) to itself on the walkable 1-by-1 grid
(the trivial single-point path, cost 0), but findPath with the default
configuration throws instead of returning a path of that cost: the first
iteration's path has one point, so firstTileTaken = thisPath[1] is
undefined, the NaN maxIterations bound never triggers, and the recursive
call dereferences undefined. -/
theorem findPath_start_eq_end_throws :
    findPath cfgDefault (maxIterationsInit none none) (0, 0) (0, 0) 9 grid1x1
      none none none = .error "TypeError: firstTileTaken is undefined" := by rfl

/-- C2: with the goal cell unwalkable, the open list empties with no
candidate recorded; `if (paths)` is nonetheless taken (a JavaScript array
is always truthy), so the engine evaluates
backtrace(bestPath([])) = backtrace(undefined) and throws a TypeError
instead of returning the empty sequence — the `return []` on line 321 is
dead code. -/
theorem findPath_unreachable_goal_throws :
    findPath cfgDefault (maxIterationsInit none none) (0, 0) (1, 0) 9 grid2x1
      none none none = .error "TypeError: undefined node in backtrace" := by rfl

/-! ## Lemmas for `resolveTies` -/

theorem tieInnerScan_mem (tw : Bool) (minF : Option JNum) (a : TieCand) :
    ∀ (l : List TieCand) (j : Nat) (b : TieCand),
      tieInnerScan tw minF a l = some (j, b) → l[j]? = some b := by
  intro l
  induction l with
  | nil => intro j b h; simp [tieInnerScan] at h
  | cons c rest ih =>
    intro j b h
    rw [tieInnerScan] at h
    by_cases hp : pairMatch tw minF a c = true
    · rw [if_pos hp] at h
      injection h with h2
      injection h2 with hj hb
      subst hj
      subst hb
      simp
    · rw [if_neg hp] at h
      cases hscan : tieInnerScan tw minF a rest with
      | none => rw [hscan] at h; simp at h
      | some r =>
        obtain ⟨j2, b2⟩ := r
        rw [hscan] at h
        simp only [Option.map_some'] at h
        injection h with h2
        injection h2 with hj hb
        subst hj
        subst hb
        simpa using ih j2 b2 hscan

theorem tieOuterScan_mem (tw : Bool) (minF : Option JNum) :
    ∀ (l : List TieCand) (i j : Nat) (a b : TieCand),
      tieOuterScan tw minF l = some (i, a, j, b) → l[i]? = some a ∧ l[j]? = some b := by
  intro l
  induction l with
  | nil => intro i j a b h; simp [tieOuterScan] at h
  | cons c rest ih =>
    intro i j a b h
    rw [tieOuterScan] at h
    cases hscan : tieInnerScan tw minF c rest with
    | some r =>
      obtain ⟨j2, b2⟩ := r
      rw [hscan] at h
      injection h with h2
      injection h2 with hi h3
      injection h3 with ha h4
      injection h4 with hj hb
      subst hi; subst ha; subst hj; subst hb
      exact ⟨by simp, by simpa using tieInnerScan_mem tw minF c rest j2 b2 hscan⟩
    | none =>
      rw [hscan] at h
      cases hout : tieOuterScan tw minF rest with
      | none => rw [hout] at h; simp at h
      | some r =>
        obtain ⟨i2, a2, j2, b2⟩ := r
        rw [hout] at h
        simp only [Option.map_some'] at h
        injection h with h2
        injection h2 with hi h3
        injection h3 with ha h4
        injection h4 with hj hb
        subst hi; subst ha; subst hj; subst hb
        have := ih i2 j2 a2 b2 hout
        exact ⟨by simpa using this.1, by simpa using this.2⟩

/-- C4 (amended): when resolveTies adjusts the preferred tied candidate it
subtracts epsilon = turnPenalty/100 from that candidate's g but does not
recompute f: the call leaves every candidate's x, y, h, f and direction
unchanged, and each candidate's g is either unchanged or decreased by
exactly epsilon — so an adjusted candidate that satisfied f = g + h before
the call satisfies f = g + h + epsilon after it, not f = g + h. -/
theorem resolveTies_adjusts_g_only (tp : ℚ) (cands : List TieCand) (minF : Option JNum)
    (prefs : List Int) (i : Nat) :
    ((resolveTies tp cands minF prefs)[i]?).map TieCand.f = (cands[i]?).map TieCand.f ∧
    ((resolveTies tp cands minF prefs)[i]?).map TieCand.h = (cands[i]?).map TieCand.h ∧
    ((resolveTies tp cands minF prefs)[i]?).map TieCand.direction =
      (cands[i]?).map TieCand.direction ∧
    (((resolveTies tp cands minF prefs)[i]?).map TieCand.g = (cands[i]?).map TieCand.g ∨
     ((resolveTies tp cands minF prefs)[i]?).map TieCand.g =
       (cands[i]?).map (fun c => c.g.sub (.num (tp / 100)))) := by
  rw [resolveTies]
  cases hscan : tieOuterScan (decide (2 < cands.countP fun c => tieFMatch minF c))
      minF cands with
  | none => exact ⟨rfl, rfl, rfl, Or.inl rfl⟩
  | some r =>
    obtain ⟨i0, a, j0, b⟩ := r
    have hmem := tieOuterScan_mem _ minF cands i0 j0 a b hscan
    dsimp only
    cases htc : tieCase a.direction b.direction with
    | none => exact ⟨rfl, rfl, rfl, Or.inl rfl⟩
    | some tc =>
      dsimp only
      by_cases hpa : jsEqOptInt a.direction (prefs.get? tc) = true
      · rw [if_pos hpa]
        have hlt : i0 < cands.length := by
          rcases Nat.lt_or_ge i0 cands.length with h | h
          · exact h
          · rw [List.getElem?_eq_none h] at hmem
            cases hmem.1
        by_cases hii : i = i0
        · subst hii
          rw [List.getElem?_set_eq_of_lt _ hlt, hmem.1]
          exact ⟨rfl, rfl, rfl, Or.inr rfl⟩
        · rw [List.getElem?_set_ne (fun h => hii h.symm)]
          exact ⟨rfl, rfl, rfl, Or.inl rfl⟩
      · rw [if_neg hpa]
        by_cases hpb : jsEqOptInt b.direction (prefs.get? tc) = true
        · rw [if_pos hpb]
          have hlt : j0 < cands.length := by
            rcases Nat.lt_or_ge j0 cands.length with h | h
            · exact h
            · rw [List.getElem?_eq_none h] at hmem
              cases hmem.2
          by_cases hii : i = j0
          · subst hii
            rw [List.getElem?_set_eq_of_lt _ hlt, hmem.2]
            exact ⟨rfl, rfl, rfl, Or.inr rfl⟩
          · rw [List.getElem?_set_ne (fun h => hii h.symm)]
            exact ⟨rfl, rfl, rfl, Or.inl rfl⟩
        · rw [if_neg hpb]
          exact ⟨rfl, rfl, rfl, Or.inl rfl⟩

/-- C4 witness: the amended theorem applied at a concrete two-way tie
(directions Up and Right, preferences favoring Up), index 0. -/
theorem resolveTies_adjusts_g_only_witness :
    ((resolveTies (1 / 1000)
      [{ x := 0, y := 1, g := .num 1, h := .num 2, f := .num 3, direction := some 0 },
       { x := 1, y := 0, g := .num 1, h := .num 2, f := .num 3, direction := some 1 }]
      (some (.num 3)) [0, 0, 0, 2, 1, 2])[0]?).map TieCand.f =
      (([{ x := 0, y := 1, g := .num 1, h := .num 2, f := .num 3, direction := some 0 },
         { x := 1, y := 0, g := .num 1, h := .num 2, f := .num 3, direction := some 1 }] :
           List TieCand)[0]?).map TieCand.f :=
  (resolveTies_adjusts_g_only (1 / 1000)
    [{ x := 0, y := 1, g := .num 1, h := .num 2, f := .num 3, direction := some 0 },
     { x := 1, y := 0, g := .num 1, h := .num 2, f := .num 3, direction := some 1 }]
    (some (.num 3)) [0, 0, 0, 2, 1, 2] 0).1

/-- C4 counterexample: in the concrete two-way tie above, the preferred
candidate's g is reduced by epsilon while its f stays 3, so after the call
the adjusted candidate has f ≠ g + h: resolveTies does not recompute f and
the f = g + h invariant is broken by exactly epsilon. -/
theorem resolveTies_breaks_f_eq_g_add_h :
    ((resolveTies (1 / 1000)
      [{ x := 0, y := 1, g := .num 1, h := .num 2, f := .num 3, direction := some 0 },
       { x := 1, y := 0, g := .num 1, h := .num 2, f := .num 3, direction := some 1 }]
      (some (.num 3)) [0, 0, 0, 2, 1, 2])[0]?).map
        (fun c => c.g) = some ((JNum.num 1).sub (.num (1 / 1000 / 100))) ∧
    ((resolveTies (1 / 1000)
      [{ x := 0, y := 1, g := .num 1, h := .num 2, f := .num 3, direction := some 0 },
       { x := 1, y := 0, g := .num 1, h := .num 2, f := .num 3, direction := some 1 }]
      (some (.num 3)) [0, 0, 0, 2, 1, 2])[0]?).map
        (fun c => c.f) ≠
      ((resolveTies (1 / 1000)
        [{ x := 0, y := 1, g := .num 1, h := .num 2, f := .num 3, direction := some 0 },
         { x := 1, y := 0, g := .num 1, h := .num 2, f := .num 3, direction := some 1 }]
        (some (.num 3)) [0, 0, 0, 2, 1, 2])[0]?).map
          (fun c => c.g.add c.h) := by
  constructor
  · rfl
  · show some (JNum.num 3) ≠ some (((JNum.num 1).sub (.num (1 / 1000 / 100))).add (.num 2))
    simp only [JNum.sub, JNum.add, ne_eq, Option.some.injEq, JNum.num.injEq]
    norm_num

theorem tieCase_none_of_unencoded (da db : Option Int)
    (ha : da ≠ some 0 ∧ da ≠ some 1 ∧ da ≠ some 2 ∧ da ≠ some 3) :
    tieCase da db = none := by
  obtain ⟨h0, h1, h2, h3⟩ := ha
  rw [tieCase]
  rw [if_neg, if_neg, if_neg, if_neg, if_neg, if_neg]
  all_goals rintro (⟨hc, -⟩ | ⟨hc, -⟩)
  all_goals first
    | exact h0 hc
    | exact h1 hc
    | exact h2 hc
    | exact h3 hc

/-- C10: when no candidate's direction field is one of the encoded values
0, 1, 2, 3, resolveTies returns the candidate list unchanged (the tie case
lookup finds no case and the switch default does nothing) — and the engine
only ever passes such candidates, because findPath never assigns a
direction field to any node, so engineTieCand extracts
direction = undefined for every candidate. -/
theorem resolveTies_noop_without_directions (tp : ℚ) (cands : List TieCand)
    (minF : Option JNum) (prefs : List Int)
    (hd : ∀ c ∈ cands, c.direction ≠ some 0 ∧ c.direction ≠ some 1 ∧
      c.direction ≠ some 2 ∧ c.direction ≠ some 3) :
    resolveTies tp cands minF prefs = cands ∧
    ∀ (st : SearchState) (p : Coord), (engineTieCand st p).direction = none := by
  refine ⟨?_, fun st p => rfl⟩
  rw [resolveTies]
  cases hscan : tieOuterScan (decide (2 < cands.countP fun c => tieFMatch minF c))
      minF cands with
  | none => rfl
  | some r =>
    obtain ⟨i0, a, j0, b⟩ := r
    have hmem := tieOuterScan_mem _ minF cands i0 j0 a b hscan
    have hamem : a ∈ cands := List.getElem?_mem hmem.1
    have htc : tieCase a.direction b.direction = none :=
      tieCase_none_of_unencoded _ _ (hd a hamem)
    dsimp only
    rw [htc]

/-- C10 witness: a concrete tied pair with no direction fields is returned
unchanged. -/
theorem resolveTies_noop_without_directions_witness :
    resolveTies (1 / 1000)
      [{ x := 0, y := 1, g := .num 1, h := .num 2, f := .num 3, direction := none },
       { x := 1, y := 0, g := .num 1, h := .num 2, f := .num 3, direction := none }]
      (some (.num 3)) [0, 0, 0, 2, 1, 2] =
      [{ x := 0, y := 1, g := .num 1, h := .num 2, f := .num 3, direction := none },
       { x := 1, y := 0, g := .num 1, h := .num 2, f := .num 3, direction := none }] :=
  (resolveTies_noop_without_directions (1 / 1000)
    [{ x := 0, y := 1, g := .num 1, h := .num 2, f := .num 3, direction := none },
     { x := 1, y := 0, g := .num 1, h := .num 2, f := .num 3, direction := none }]
    (some (.num 3)) [0, 0, 0, 2, 1, 2] (by decide)).1

/-! ## Lemmas for `compressPath` and `expandPath` -/

theorem normDir_smul (u : Coord) (hu : unitDir u = true) (k : Nat) (hk : 1 ≤ k) :
    normDir ((k : Int) * u.1) ((k : Int) * u.2) = some u := by
  obtain ⟨a, b⟩ := u
  simp only [unitDir, Bool.and_eq_true, decide_eq_true_eq, Bool.not_eq_true',
    decide_eq_false_iff_not, Prod.mk.injEq] at hu
  obtain ⟨⟨h1, h2⟩, hz⟩ := hu
  have hk0 : (k : Int) ≠ 0 := by omega
  have hne : ¬ ((k : Int) * a = 0 ∧ (k : Int) * b = 0) := by
    intro hc
    refine hz ⟨?_, ?_⟩
    · rcases mul_eq_zero.mp hc.1 with h | h
      · exact absurd h hk0
      · exact h
    · rcases mul_eq_zero.mp hc.2 with h | h
      · exact absurd h hk0
      · exact h
  rw [normDir, if_neg hne]
  have hg1 : Int.gcd a b = 1 := by
    have ha : a = -1 ∨ a = 0 ∨ a = 1 := by omega
    have hb : b = -1 ∨ b = 0 ∨ b = 1 := by omega
    rcases ha with rfl | rfl | rfl <;> rcases hb with rfl | rfl | rfl <;>
      first
      | rfl
      | (exact absurd ⟨rfl, rfl⟩ hz)
  have hg : (Int.gcd ((k : Int) * a) ((k : Int) * b) : Int) = (k : Int) := by
    rw [Int.gcd_mul_left, hg1]
    simp
  rw [hg, Int.mul_ediv_cancel_left _ hk0, Int.mul_ediv_cancel_left _ hk0]

theorem octSeg_decomp (a b : Coord) (h : octSeg a b = true) :
    ∃ (u : Coord) (k : Nat), unitDir u = true ∧ 1 ≤ k ∧
      b.1 - a.1 = (k : Int) * u.1 ∧ b.2 - a.2 = (k : Int) * u.2 ∧
      segDir a b = some u := by
  have hne : ¬ ((b.1 = a.1) ∧ (b.2 = a.2)) := by
    intro hc
    rw [octSeg, decide_eq_true hc.1, decide_eq_true hc.2] at h
    simp at h
  have hshape : (b.1 = a.1) ∨ (b.2 = a.2) ∨
      ((b.1 - a.1).natAbs = (b.2 - a.2).natAbs) := by
    by_contra hc
    push_neg at hc
    rw [octSeg, decide_eq_false hc.1, decide_eq_false hc.2.1,
      decide_eq_false hc.2.2] at h
    simp at h
  rcases hshape with h1 | h2 | h3
  · have hdy : b.2 - a.2 ≠ 0 := fun hc => hne ⟨h1, by omega⟩
    rcases lt_or_gt_of_ne hdy with hneg | hpos
    · have hk : 1 ≤ (a.2 - b.2).toNat := by omega
      have hdx2 : b.1 - a.1 = (((a.2 - b.2).toNat : Nat) : Int) * 0 := by omega
      have hdy2 : b.2 - a.2 = (((a.2 - b.2).toNat : Nat) : Int) * (-1) := by omega
      refine ⟨(0, -1), (a.2 - b.2).toNat, by decide, hk, hdx2, hdy2, ?_⟩
      rw [segDir, hdx2, hdy2]
      exact normDir_smul (0, -1) (by decide) _ hk
    · have hk : 1 ≤ (b.2 - a.2).toNat := by omega
      have hdx2 : b.1 - a.1 = (((b.2 - a.2).toNat : Nat) : Int) * 0 := by omega
      have hdy2 : b.2 - a.2 = (((b.2 - a.2).toNat : Nat) : Int) * 1 := by omega
      refine ⟨(0, 1), (b.2 - a.2).toNat, by decide, hk, hdx2, hdy2, ?_⟩
      rw [segDir, hdx2, hdy2]
      exact normDir_smul (0, 1) (by decide) _ hk
  · have hdx : b.1 - a.1 ≠ 0 := fun hc => hne ⟨by omega, h2⟩
    rcases lt_or_gt_of_ne hdx with hneg | hpos
    · have hk : 1 ≤ (a.1 - b.1).toNat := by omega
      have hdx2 : b.1 - a.1 = (((a.1 - b.1).toNat : Nat) : Int) * (-1) := by omega
      have hdy2 : b.2 - a.2 = (((a.1 - b.1).toNat : Nat) : Int) * 0 := by omega
      refine ⟨(-1, 0), (a.1 - b.1).toNat, by decide, hk, hdx2, hdy2, ?_⟩
      rw [segDir, hdx2, hdy2]
      exact normDir_smul (-1, 0) (by decide) _ hk
    · have hk : 1 ≤ (b.1 - a.1).toNat := by omega
      have hdx2 : b.1 - a.1 = (((b.1 - a.1).toNat : Nat) : Int) * 1 := by omega
      have hdy2 : b.2 - a.2 = (((b.1 - a.1).toNat : Nat) : Int) * 0 := by omega
      refine ⟨(1, 0), (b.1 - a.1).toNat, by decide, hk, hdx2, hdy2, ?_⟩
      rw [segDir, hdx2, hdy2]
      exact normDir_smul (1, 0) (by decide) _ hk
  · have hdx : b.1 - a.1 ≠ 0 := by
      intro hc
      exact hne ⟨by omega, by omega⟩
    have hdy : b.2 - a.2 ≠ 0 := by
      intro hc
      exact hne ⟨by omega, by omega⟩
    rcases lt_or_gt_of_ne hdx with hxneg | hxpos <;>
      rcases lt_or_gt_of_ne hdy with hyneg | hypos
    · have hk : 1 ≤ (a.1 - b.1).toNat := by omega
      have hdx2 : b.1 - a.1 = (((a.1 - b.1).toNat : Nat) : Int) * (-1) := by omega
      have hdy2 : b.2 - a.2 = (((a.1 - b.1).toNat : Nat) : Int) * (-1) := by omega
      refine ⟨(-1, -1), (a.1 - b.1).toNat, by decide, hk, hdx2, hdy2, ?_⟩
      rw [segDir, hdx2, hdy2]
      exact normDir_smul (-1, -1) (by decide) _ hk
    · have hk : 1 ≤ (a.1 - b.1).toNat := by omega
      have hdx2 : b.1 - a.1 = (((a.1 - b.1).toNat : Nat) : Int) * (-1) := by omega
      have hdy2 : b.2 - a.2 = (((a.1 - b.1).toNat : Nat) : Int) * 1 := by omega
      refine ⟨(-1, 1), (a.1 - b.1).toNat, by decide, hk, hdx2, hdy2, ?_⟩
      rw [segDir, hdx2, hdy2]
      exact normDir_smul (-1, 1) (by decide) _ hk
    · have hk : 1 ≤ (b.1 - a.1).toNat := by omega
      have hdx2 : b.1 - a.1 = (((b.1 - a.1).toNat : Nat) : Int) * 1 := by omega
      have hdy2 : b.2 - a.2 = (((b.1 - a.1).toNat : Nat) : Int) * (-1) := by omega
      refine ⟨(1, -1), (b.1 - a.1).toNat, by decide, hk, hdx2, hdy2, ?_⟩
      rw [segDir, hdx2, hdy2]
      exact normDir_smul (1, -1) (by decide) _ hk
    · have hk : 1 ≤ (b.1 - a.1).toNat := by omega
      have hdx2 : b.1 - a.1 = (((b.1 - a.1).toNat : Nat) : Int) * 1 := by omega
      have hdy2 : b.2 - a.2 = (((b.1 - a.1).toNat : Nat) : Int) * 1 := by omega
      refine ⟨(1, 1), (b.1 - a.1).toNat, by decide, hk, hdx2, hdy2, ?_⟩
      rw [segDir, hdx2, hdy2]
      exact normDir_smul (1, 1) (by decide) _ hk

theorem normDir_unit (u : Coord) (hu : unitDir u = true) : normDir u.1 u.2 = some u := by
  have h := normDir_smul u hu 1 le_rfl
  simpa using h

theorem interpolate_straight_dropLast (x y : Int) (u : Coord) (hu : unitDir u = true)
    (k : Nat) (hk : 1 ≤ k) :
    (interpolate x y (x + k * u.1) (y + k * u.2)).dropLast =
      (x, y) :: runPts (x, y) u (k - 1) := by
  rw [interpolate_straight x y u hu k hk]
  obtain ⟨k2, rfl⟩ : ∃ m, k = m + 1 := ⟨k - 1, by omega⟩
  rw [runPts_succ,
    show ((x, y) :: (runPts (x, y) u k2 ++
        [((x, y).1 + ((k2 : Int) + 1) * u.1, (x, y).2 + ((k2 : Int) + 1) * u.2)])) =
      (((x, y) :: runPts (x, y) u k2) ++
        [((x, y).1 + ((k2 : Int) + 1) * u.1, (x, y).2 + ((k2 : Int) + 1) * u.2)]) from rfl,
    List.dropLast_concat]
  simp

theorem expandSegs_cons_decomp (b c : Coord) (ps : List Coord) (u : Coord) (k : Nat)
    (hu : unitDir u = true) (hk : 1 ≤ k)
    (hdx : c.1 - b.1 = (k : Int) * u.1) (hdy : c.2 - b.2 = (k : Int) * u.2) :
    expandSegs b (c :: ps) = (b :: runPts b u (k - 1)) ++ expandSegs c ps := by
  rw [expandSegs]
  congr 1
  have hc1 : c.1 = b.1 + (k : Int) * u.1 := by omega
  have hc2 : c.2 = b.2 + (k : Int) * u.2 := by omega
  rw [hc1, hc2]
  exact interpolate_straight_dropLast b.1 b.2 u hu k hk

theorem expandSegs_shape (b : Coord) (ps : List Coord) (h : chainOct (b :: ps) = true) :
    expandSegs b ps = b :: (expandSegs b ps).tail := by
  cases ps with
  | nil => rfl
  | cons c ps2 =>
    have hoct : octSeg b c = true := by
      rw [show chainOct (b :: c :: ps2) = (octSeg b c && chainOct (c :: ps2)) from rfl] at h
      simp only [Bool.and_eq_true] at h
      exact h.1
    obtain ⟨u, k, hu, hk, hdx, hdy, _⟩ := octSeg_decomp b c hoct
    rw [expandSegs_cons_decomp b c ps2 u k hu hk hdx hdy]
    rfl

theorem compressGo_cons (p : Coord) (d : Option Coord) (q : Coord) (rest acc : List Coord) :
    compressGo p d (q :: rest) acc =
      if dirNe (normDir (q.1 - p.1) (q.2 - p.2)) d then
        compressGo q (normDir (q.1 - p.1) (q.2 - p.2)) rest (acc ++ [p])
      else compressGo q (normDir (q.1 - p.1) (q.2 - p.2)) rest acc := by
  rw [compressGo]

theorem compressGo_consume (u : Coord) (hu : unitDir u = true) :
    ∀ (k : Nat) (p : Coord) (suffix acc : List Coord),
      compressGo p (some u) (runPts p u k ++ suffix) acc =
        compressGo (p.1 + (k : Int) * u.1, p.2 + (k : Int) * u.2) (some u) suffix acc := by
  intro k
  induction k with
  | zero =>
    intro p suffix acc
    rw [runPts_zero]
    simp
  | succ k ih =>
    intro p suffix acc
    rw [runPts_cons, List.cons_append, compressGo_cons]
    rw [show (p.1 + u.1, p.2 + u.2).1 - p.1 = u.1 by simp,
        show (p.1 + u.1, p.2 + u.2).2 - p.2 = u.2 by simp,
        normDir_unit u hu]
    rw [if_neg (by simp [dirNe])]
    rw [ih (p.1 + u.1, p.2 + u.2) suffix acc]
    congr 1
    simp only [Prod.mk.injEq]
    push_cast
    constructor <;> ring

theorem compressGo_expand :
    ∀ (ps : List Coord) (b : Coord) (u : Coord) (acc : List Coord),
      unitDir u = true → chainOct (b :: ps) = true →
      noColinFrom (some u) (b :: ps) = true →
      compressGo b (some u) ((expandSegs b ps).tail) acc = acc ++ b :: ps := by
  intro ps
  induction ps with
  | nil =>
    intro b u acc hu hoct hnc
    rw [show ((expandSegs b []).tail : List Coord) = [] from rfl, compressGo]
  | cons c ps2 ih =>
    intro b u acc hu hoct hnc
    rw [show chainOct (b :: c :: ps2) = (octSeg b c && chainOct (c :: ps2)) from rfl] at hoct
    simp only [Bool.and_eq_true] at hoct
    obtain ⟨v, k, hv, hk, hdx, hdy, hsd⟩ := octSeg_decomp b c hoct.1
    obtain ⟨k2, rfl⟩ : ∃ m, k = m + 1 := ⟨k - 1, by omega⟩
    rw [show noColinFrom (some u) (b :: c :: ps2) =
        (decide (segDir b c ≠ some u) && noColinFrom (segDir b c) (c :: ps2)) from rfl] at hnc
    simp only [Bool.and_eq_true, decide_eq_true_eq] at hnc
    have hvu : v ≠ u := by
      intro hcc
      exact hnc.1 (by rw [hsd, hcc])
    have hnc2 : noColinFrom (some v) (c :: ps2) = true := by
      have h2 := hnc.2
      rw [hsd] at h2
      exact h2
    rw [expandSegs_cons_decomp b c ps2 v (k2 + 1) hv hk hdx hdy]
    rw [show (((b :: runPts b v (k2 + 1 - 1)) ++ expandSegs c ps2).tail : List Coord) =
        runPts b v (k2 + 1 - 1) ++ expandSegs c ps2 from rfl]
    rw [Nat.add_sub_cancel]
    rw [expandSegs_shape c ps2 hoct.2]
    have hc : c = ((b.1 + ((k2 : Int) + 1) * v.1, b.2 + ((k2 : Int) + 1) * v.2) : Coord) := by
      push_cast at hdx hdy
      exact Prod.ext (by omega) (by omega)
    have hkey : runPts b v k2 ++ (c :: (expandSegs c ps2).tail) =
        runPts b v (k2 + 1) ++ (expandSegs c ps2).tail := by
      rw [runPts_succ, List.append_assoc, List.singleton_append]
      rw [show ((runPts b v k2 : List Coord) ++
          (b.1 + ((k2 : Int) + 1) * v.1, b.2 + ((k2 : Int) + 1) * v.2) ::
            (expandSegs c ps2).tail) =
        runPts b v k2 ++ (((b.1 + ((k2 : Int) + 1) * v.1,
          b.2 + ((k2 : Int) + 1) * v.2) : Coord) :: (expandSegs c ps2).tail) from rfl]
      rw [← hc]
    rw [hkey]
    rw [runPts_cons, List.cons_append, compressGo_cons]
    rw [show (b.1 + v.1, b.2 + v.2).1 - b.1 = v.1 by simp,
        show (b.1 + v.1, b.2 + v.2).2 - b.2 = v.2 by simp,
        normDir_unit v hv]
    rw [if_pos (by simp [dirNe, hvu])]
    rw [compressGo_consume v hv k2 (b.1 + v.1, b.2 + v.2) _ (acc ++ [b])]
    have hend : (((b.1 + v.1, b.2 + v.2).1 + (k2 : Int) * v.1,
        (b.1 + v.1, b.2 + v.2).2 + (k2 : Int) * v.2) : Coord) = c := by
      have e1 : ((k2 : Int) + 1) * v.1 = (k2 : Int) * v.1 + v.1 := by ring
      have e2 : ((k2 : Int) + 1) * v.2 = (k2 : Int) * v.2 + v.2 := by ring
      push_cast at hdx hdy
      exact Prod.ext (by simp only []; omega) (by simp only []; omega)
    rw [hend]
    rw [ih c v (acc ++ [b]) hv hoct.2 hnc2]
    simp

theorem runPts_eq_nil (p u : Coord) (k : Nat) (h : runPts p u k = []) : k = 0 := by
  have hlen := congrArg List.length h
  simpa [runPts] using hlen

theorem compressPath_cons_run (p0 u : Coord) (k : Nat) (hk : 1 ≤ k)
    (hu : unitDir u = true) (T : List Coord) :
    compressPath (p0 :: (runPts p0 u k ++ T)) =
      p0 :: compressGo (p0.1 + (k : Int) * u.1, p0.2 + (k : Int) * u.2) (some u) T [] := by
  obtain ⟨k2, rfl⟩ : ∃ m, k = m + 1 := ⟨k - 1, by omega⟩
  rw [runPts_cons, List.cons_append]
  cases hlist : (runPts (p0.1 + u.1, p0.2 + u.2) u k2 ++ T) with
  | nil =>
    obtain ⟨hrun, hT⟩ := List.append_eq_nil.mp hlist
    have hk2e : k2 = 0 := runPts_eq_nil _ _ _ hrun
    subst hT
    subst hk2e
    rw [show compressPath [p0, (p0.1 + u.1, p0.2 + u.2)] =
        [p0, (p0.1 + u.1, p0.2 + u.2)] from rfl]
    rw [show compressGo (p0.1 + ((0 : Nat) + 1 : Nat) * u.1,
        p0.2 + ((0 : Nat) + 1 : Nat) * u.2) (some u) [] [] =
      [(p0.1 + ((0 : Nat) + 1 : Nat) * u.1, p0.2 + ((0 : Nat) + 1 : Nat) * u.2)] from rfl]
    simp
  | cons h2 t2 =>
    rw [show compressPath (p0 :: (p0.1 + u.1, p0.2 + u.2) :: h2 :: t2) =
        p0 :: compressGo (p0.1 + u.1, p0.2 + u.2)
          (normDir ((p0.1 + u.1, p0.2 + u.2).1 - p0.1) ((p0.1 + u.1, p0.2 + u.2).2 - p0.2))
          (h2 :: t2) [] from rfl]
    rw [show (p0.1 + u.1, p0.2 + u.2).1 - p0.1 = u.1 by simp,
        show (p0.1 + u.1, p0.2 + u.2).2 - p0.2 = u.2 by simp,
        normDir_unit u hu]
    rw [← hlist]
    rw [compressGo_consume u hu k2 (p0.1 + u.1, p0.2 + u.2) T []]
    congr 2
    simp only [Prod.mk.injEq]
    push_cast
    constructor <;> ring

/-- C8 (amended): for every path with at least two points whose
consecutive segments are nonzero and grid-aligned (horizontal, vertical or
exactly diagonal — the only segments a compressed grid path can have) and
whose consecutive segments never share a normalized direction (no
redundant colinear interior points), compressPath applied to the expanded
rasterized path recovers exactly the original turn points:
compressPath (expandPath p) = p. -/
theorem compress_expand_roundtrip (p0 p1 : Coord) (rest : List Coord)
    (hoct : chainOct (p0 :: p1 :: rest) = true)
    (hnc : noColin (p0 :: p1 :: rest) = true) :
    compressPath (expandPath (p0 :: p1 :: rest)) = p0 :: p1 :: rest := by
  have hoct2 := hoct
  rw [show chainOct (p0 :: p1 :: rest) = (octSeg p0 p1 && chainOct (p1 :: rest))
      from rfl] at hoct2
  simp only [Bool.and_eq_true] at hoct2
  obtain ⟨u, k, hu, hk, hdx, hdy, hsd⟩ := octSeg_decomp p0 p1 hoct2.1
  have hc : p1 = ((p0.1 + (k : Int) * u.1, p0.2 + (k : Int) * u.2) : Coord) :=
    Prod.ext (by omega) (by omega)
  rw [show expandPath (p0 :: p1 :: rest) = expandSegs p0 (p1 :: rest) from rfl]
  rw [expandSegs_cons_decomp p0 p1 rest u k hu hk hdx hdy]
  rw [expandSegs_shape p1 rest hoct2.2]
  rw [List.cons_append]
  have hkey : runPts p0 u (k - 1) ++ (p1 :: (expandSegs p1 rest).tail) =
      runPts p0 u k ++ (expandSegs p1 rest).tail := by
    obtain ⟨k2, hke⟩ : ∃ m, k = m + 1 := ⟨k - 1, by omega⟩
    subst hke
    have hc2 : p1 = ((p0.1 + ((k2 : Int) + 1) * u.1,
        p0.2 + ((k2 : Int) + 1) * u.2) : Coord) := by
      push_cast at hc
      exact hc
    rw [Nat.add_sub_cancel, runPts_succ, List.append_assoc, List.singleton_append, hc2]
  rw [hkey]
  rw [compressPath_cons_run p0 u k hk hu ((expandSegs p1 rest).tail)]
  rw [show ((p0.1 + (k : Int) * u.1, p0.2 + (k : Int) * u.2) : Coord) = p1 from hc.symm]
  have hncf : noColinFrom (some u) (p1 :: rest) = true := by
    have h2 := hnc
    rw [show noColin (p0 :: p1 :: rest) = noColinFrom (segDir p0 p1) (p1 :: rest)
        from rfl, hsd] at h2
    exact h2
  rw [compressGo_expand rest p1 u [] hu hoct2.2 hncf]
  rfl

/-- C8 witness: the amended theorem applied to the concrete two-segment
turn path (0,0) -> (3,0) -> (3,4). -/
theorem compress_expand_roundtrip_witness :
    compressPath (expandPath [((0 : Int), (0 : Int)), (3, 0), (3, 4)]) =
      [((0 : Int), (0 : Int)), (3, 0), (3, 4)] :=
  compress_expand_roundtrip (0, 0) (3, 0) [(3, 4)] (by decide) (by decide)

/-- C8 counterexample: for the two-point path (0,0),(2,1) — which has no
interior points, hence vacuously no redundant colinear interior points —
the Bresenham expansion is not a straight run, and compressing it keeps
the intermediate bend (1,0): compressPath (expandPath p) ≠ p as the claim
states it. -/
theorem compress_expand_not_id :
    compressPath (expandPath [((0 : Int), (0 : Int)), (2, 1)]) =
      [((0 : Int), (0 : Int)), (1, 0), (2, 1)] ∧
    compressPath (expandPath [((0 : Int), (0 : Int)), (2, 1)]) ≠
      [((0 : Int), (0 : Int)), (2, 1)] := by decide
